import Mathlib

/-!
Verification of the Team Heat Scheduler core (src/main.py).

The program builds a mixed-integer model: one binary assignment variable
x[t][f][h][b] per (team, flight, heat, boat), one binary pairing indicator
w[(t1,t2)][f][h] per unordered team pair and (flight, heat), four constraint
families, a randomized plus fairness objective to be minimized, a solve call
through an external MILP capability, and an extraction of the solved values
into a nested schedule structure.

We embed the model shallowly: assignments are natural-number valued functions
constrained to be binary on the index ranges, sums are Finset sums, the solved
variable values read back from the solver are `Option Rat` (a variable that was
never assigned a value reads back as `none`), and the extraction mirrors the
Python dict-building loops.
-/

namespace TeamHeatScheduler

/-- Ordered pairs from itertools.combinations(teams, 2) (src/main.py line 18):
all (t1, t2) with t1 < t2 < num_teams. -/
def team_pairs (num_teams : ℕ) : Finset (ℕ × ℕ) :=
  (Finset.range num_teams ×ˢ Finset.range num_teams).filter fun p => p.1 < p.2

/-- The linear expression summed over boats, pulp.lpSum x[t][f][h][b] for b in
boats, used in constraints 2 and 3 of src/main.py. -/
def occ (x : ℕ → ℕ → ℕ → ℕ → ℕ) (num_boats t f h : ℕ) : ℕ :=
  ∑ b ∈ Finset.range num_boats, x t f h b

/-- The x variables are binary (cat='Binary', src/main.py line 21), stated on
the index ranges the model creates variables for. -/
def BinaryOn (num_teams num_flights num_heats num_boats : ℕ)
    (x : ℕ → ℕ → ℕ → ℕ → ℕ) : Prop :=
  ∀ t < num_teams, ∀ f < num_flights, ∀ h < num_heats, ∀ b < num_boats,
    x t f h b ≤ 1

/-- The w variables are binary (cat='Binary', src/main.py line 22). -/
def WBinaryOn (num_teams num_flights num_heats : ℕ)
    (w : ℕ → ℕ → ℕ → ℕ → ℕ) : Prop :=
  ∀ t1 t2, t1 < t2 → t2 < num_teams → ∀ f < num_flights, ∀ h < num_heats,
    w t1 t2 f h ≤ 1

/-- Constraint family 1 (src/main.py lines 48-51): each boat in each flight
and heat is assigned to at most one team. -/
def boat_exclusivity (num_teams num_flights num_heats num_boats : ℕ)
    (x : ℕ → ℕ → ℕ → ℕ → ℕ) : Prop :=
  ∀ f < num_flights, ∀ h < num_heats, ∀ b < num_boats,
    (∑ t ∈ Finset.range num_teams, x t f h b) ≤ 1

/-- Constraint family 2 (src/main.py lines 54-57): each team in each flight
and heat is assigned to at most one boat. -/
def team_exclusivity (num_teams num_flights num_heats num_boats : ℕ)
    (x : ℕ → ℕ → ℕ → ℕ → ℕ) : Prop :=
  ∀ t < num_teams, ∀ f < num_flights, ∀ h < num_heats,
    occ x num_boats t f h ≤ 1

/-- Constraint family 3 (src/main.py lines 61-67): for every team pair and
every (flight, heat), the three linkage inequalities defining w, namely
w ≤ occ(t1), w ≤ occ(t2) and w ≥ occ(t1) + occ(t2) - 1. -/
def pairing_linkage (num_teams num_flights num_heats num_boats : ℕ)
    (x w : ℕ → ℕ → ℕ → ℕ → ℕ) : Prop :=
  ∀ t1 t2, t1 < t2 → t2 < num_teams → ∀ f < num_flights, ∀ h < num_heats,
    w t1 t2 f h ≤ occ x num_boats t1 f h ∧
    w t1 t2 f h ≤ occ x num_boats t2 f h ∧
    (occ x num_boats t1 f h : ℤ) + (occ x num_boats t2 f h : ℤ) - 1 ≤
      (w t1 t2 f h : ℤ)

/-- Constraint family 4 (src/main.py lines 70-72): every team sails exactly
once per flight (the lpSum over heats and boats equals 1). -/
def flight_participation (num_teams num_flights num_heats num_boats : ℕ)
    (x : ℕ → ℕ → ℕ → ℕ → ℕ) : Prop :=
  ∀ t < num_teams, ∀ f < num_flights,
    (∑ h ∈ Finset.range num_heats, ∑ b ∈ Finset.range num_boats, x t f h b) = 1

/-- The whole constraint set of the model is satisfiable by some binary
assignment of the x and w variables. -/
def Feasible (num_teams num_flights num_heats num_boats : ℕ) : Prop :=
  ∃ x w : ℕ → ℕ → ℕ → ℕ → ℕ,
    BinaryOn num_teams num_flights num_heats num_boats x ∧
    WBinaryOn num_teams num_flights num_heats w ∧
    boat_exclusivity num_teams num_flights num_heats num_boats x ∧
    team_exclusivity num_teams num_flights num_heats num_boats x ∧
    pairing_linkage num_teams num_flights num_heats num_boats x w ∧
    flight_participation num_teams num_flights num_heats num_boats x

/-- The sense of the pulp.LpProblem. -/
inductive LpSense where
  | minimize : LpSense
  | maximize : LpSense
deriving DecidableEq

/-- The problem is created with pulp.LpMinimize (src/main.py line 11). -/
def problem_sense : LpSense := LpSense.minimize

/-- The objective expression built at src/main.py lines 38-43, evaluated at
rational values of the x and w variables: the sum of random_weights times x
over all index tuples, plus, for each team pair, penalty_w times one minus the
sum of the pair's w variables over all flights and heats. -/
def objective (num_teams num_flights num_heats num_boats : ℕ)
    (random_weights : ℕ → ℕ → ℕ → ℕ → ℚ) (penalty_w : ℕ → ℕ → ℚ)
    (xv : ℕ → ℕ → ℕ → ℕ → ℚ) (wv : ℕ → ℕ → ℕ → ℕ → ℚ) : ℚ :=
  (∑ t ∈ Finset.range num_teams, ∑ f ∈ Finset.range num_flights,
    ∑ h ∈ Finset.range num_heats, ∑ b ∈ Finset.range num_boats,
      random_weights t f h b * xv t f h b) +
  ∑ p ∈ team_pairs num_teams,
    penalty_w p.1 p.2 *
      (1 - ∑ f ∈ Finset.range num_flights, ∑ h ∈ Finset.range num_heats,
        wv p.1 p.2 f h)

/-- The objective as the specification words it (section 4.3): a single sum of
randomWeight times x over all variables, that is over the product index set,
plus a sum over all pairs of pairPenalty times (1 minus the sum over all
(round, subRound) pairs of w). -/
def objective_spec (num_teams num_flights num_heats num_boats : ℕ)
    (random_weights : ℕ → ℕ → ℕ → ℕ → ℚ) (penalty_w : ℕ → ℕ → ℚ)
    (xv : ℕ → ℕ → ℕ → ℕ → ℚ) (wv : ℕ → ℕ → ℕ → ℕ → ℚ) : ℚ :=
  (∑ q ∈ Finset.range num_teams ×ˢ
      (Finset.range num_flights ×ˢ
        (Finset.range num_heats ×ˢ Finset.range num_boats)),
    random_weights q.1 q.2.1 q.2.2.1 q.2.2.2 * xv q.1 q.2.1 q.2.2.1 q.2.2.2) +
  ∑ p ∈ team_pairs num_teams,
    penalty_w p.1 p.2 *
      (1 - ∑ r ∈ Finset.range num_flights ×ˢ Finset.range num_heats,
        wv p.1 p.2 r.1 r.2)

/-- Solver statuses as reported through pulp.LpStatus. Modelled from the spec:
the external MILP capability (spec sections 4.4 and 7) reports Optimal,
Infeasible, Unbounded, Undefined, or a time-limit expiry; pulp labels a
time-limit expiry (with or without an incumbent) as the fifth status value,
whose label string is "Not Solved". -/
inductive CbcStatus where
  | optimal : CbcStatus
  | notSolved : CbcStatus
  | infeasible : CbcStatus
  | unbounded : CbcStatus
  | undefined : CbcStatus
deriving DecidableEq

/-- The pulp.LpStatus label string of each solver status. -/
def statusLabel : CbcStatus → String
  | CbcStatus.optimal => "Optimal"
  | CbcStatus.notSolved => "Not Solved"
  | CbcStatus.infeasible => "Infeasible"
  | CbcStatus.unbounded => "Unbounded"
  | CbcStatus.undefined => "Undefined"

/-- Python dict assignment d[k] = v on a dict represented as a key-value list:
replace the value at an existing key in place, else append the new pair. -/
def dictInsert : List (ℕ × ℕ) → ℕ → ℕ → List (ℕ × ℕ)
  | [], k, v => [(k, v)]
  | (k', v') :: rest, k, v =>
      if k' = k then (k, v) :: rest else (k', v') :: dictInsert rest k v

/-- Python dict lookup d.get(k) on the key-value list representation. -/
def dictGet : List (ℕ × ℕ) → ℕ → Option ℕ
  | [], _ => none
  | (k', v') :: rest, k => if k' = k then some v' else dictGet rest k

/-- The inner loop of the extraction (src/main.py lines 91-93): for t in
teams, if pulp.value(x[t][f][h][b]) == 1 then heat_schedule[b] = t + 1. -/
def heatAssign (val : ℕ → ℕ → ℕ → ℕ → Option ℚ) (f h b num_teams : ℕ)
    (d : List (ℕ × ℕ)) : List (ℕ × ℕ) :=
  (List.range num_teams).foldl
    (fun acc t => if val t f h b = some 1 then dictInsert acc b (t + 1) else acc)
    d

/-- The heat_schedule dict built at src/main.py lines 89-93: start from the
empty dict and run the boat loop, each boat running the team loop. -/
def heat_schedule (val : ℕ → ℕ → ℕ → ℕ → Option ℚ)
    (num_teams num_boats f h : ℕ) : List (ℕ × ℕ) :=
  (List.range num_boats).foldl (fun acc b => heatAssign val f h b num_teams acc) []

/-- The nested schedule structure built at src/main.py lines 85-95: one entry
per flight in flight order, each a list of heat dicts in heat order. -/
def schedule (val : ℕ → ℕ → ℕ → ℕ → Option ℚ)
    (num_teams num_flights num_heats num_boats : ℕ) :
    List (List (List (ℕ × ℕ))) :=
  (List.range num_flights).map fun f =>
    (List.range num_heats).map fun h => heat_schedule val num_teams num_boats f h

/-- The post-solve part of generate_schedule (src/main.py lines 80-97), as a
function of the status the solver reported and of the solved variable values
(pulp.value reads back `none` for a variable the solver never valued): if the
status label is one of 'Infeasible', 'Unbounded', 'Undefined' return None,
else extract and return the schedule. The parameters keep the source order
(num_flights, num_boats, num_teams, num_heats). -/
def generate_schedule (num_flights num_boats num_teams num_heats : ℕ)
    (status : CbcStatus) (val : ℕ → ℕ → ℕ → ℕ → Option ℚ) :
    Option (List (List (List (ℕ × ℕ)))) :=
  if statusLabel status ∈ ["Infeasible", "Unbounded", "Undefined"] then none
  else some (schedule val num_teams num_flights num_heats num_boats)

/-- Helper: a sum of at-most-one terms over a finite set counts the elements
where the term is exactly one. -/
lemma sum_binary_eq_card_filter {α : Type} [DecidableEq α] (s : Finset α)
    (g : α → ℕ) (hg : ∀ a ∈ s, g a ≤ 1) :
    (∑ a ∈ s, g a) = (s.filter fun a => g a = 1).card := by
  classical
  rw [← Finset.sum_filter_add_sum_filter_not s (fun a => g a = 1)]
  have h2 : (∑ a ∈ s.filter fun a => ¬ g a = 1, g a) = 0 := by
    apply Finset.sum_eq_zero
    intro a ha
    rcases Finset.mem_filter.mp ha with ⟨has, hne⟩
    have := hg a has
    omega
  have h1 : (∑ a ∈ s.filter fun a => g a = 1, g a) =
      (s.filter fun a => g a = 1).card := by
    rw [Finset.card_eq_sum_ones]
    apply Finset.sum_congr rfl
    intro a ha
    exact (Finset.mem_filter.mp ha).2
  rw [h1, h2]
  omega

/-- Helper: a binary sum is at least two when two distinct members contribute
one each, so it cannot be bounded by one. -/
lemma two_ones_contradiction {s : Finset ℕ} {g : ℕ → ℕ} {a b : ℕ}
    (ha : a ∈ s) (hb : b ∈ s) (hne : a ≠ b) (hga : g a = 1) (hgb : g b = 1)
    (hle : (∑ i ∈ s, g i) ≤ 1) : False := by
  classical
  have hsub : {a, b} ⊆ s := by
    intro i hi
    rcases Finset.mem_insert.mp hi with rfl | hi
    · exact ha
    · exact Finset.mem_singleton.mp hi ▸ hb
  have hpair : (∑ i ∈ ({a, b} : Finset ℕ), g i) = 2 := by
    rw [Finset.sum_pair hne, hga, hgb]
  have hmono : (∑ i ∈ ({a, b} : Finset ℕ), g i) ≤ ∑ i ∈ s, g i :=
    Finset.sum_le_sum_of_subset hsub
  omega

/-- C4: for every team pair and every (flight, heat), the three linkage
inequalities of the model (together with team exclusivity, which bounds each
occupancy by one) force the pairing indicator to equal one exactly when both
teams of the pair occupy some boat in that (flight, heat). -/
theorem pairing_indicator_tracks_conjunction
    (num_teams num_flights num_heats num_boats : ℕ)
    (x w : ℕ → ℕ → ℕ → ℕ → ℕ)
    (hteam : team_exclusivity num_teams num_flights num_heats num_boats x)
    (hlink : pairing_linkage num_teams num_flights num_heats num_boats x w) :
    ∀ t1 t2, t1 < t2 → t2 < num_teams → ∀ f < num_flights, ∀ h < num_heats,
      (w t1 t2 f h = 1 ↔
        occ x num_boats t1 f h = 1 ∧ occ x num_boats t2 f h = 1) := by
  intro t1 t2 h12 h2T f hf h hh
  have ht1 : t1 < num_teams := lt_trans h12 h2T
  have hocc1 : occ x num_boats t1 f h ≤ 1 := hteam t1 ht1 f hf h hh
  have hocc2 : occ x num_boats t2 f h ≤ 1 := hteam t2 h2T f hf h hh
  rcases hlink t1 t2 h12 h2T f hf h hh with ⟨hw1, hw2, hw3⟩
  constructor
  · intro hw
    constructor
    · omega
    · omega
  · intro ⟨h1, h2⟩
    omega

/-- C4 witness: a concrete satisfying instance of the linkage constraints,
with both teams occupying a boat and the indicator equal to one. -/
theorem pairing_indicator_tracks_conjunction_witness :
    ((fun (_ _ _ _ : ℕ) => 1) : ℕ → ℕ → ℕ → ℕ → ℕ) 0 1 0 0 = 1 ↔
      occ (fun t _ _ b => if t = b then 1 else 0) 2 0 0 0 = 1 ∧
      occ (fun t _ _ b => if t = b then 1 else 0) 2 1 0 0 = 1 :=
  pairing_indicator_tracks_conjunction 2 1 1 2
    (fun t _ _ b => if t = b then 1 else 0) (fun _ _ _ _ => 1)
    (by unfold team_exclusivity occ; decide)
    (by
      intro t1 t2 h12 h2T f hf h hh
      have ht2 : t2 = 1 := by omega
      have ht1 : t1 = 0 := by omega
      have hf0 : f = 0 := by omega
      have hh0 : h = 0 := by omega
      subst ht2 ht1 hf0 hh0
      exact ⟨by decide, by decide, by decide⟩)
    0 1 (by decide) (by decide) 0 (by decide) 0 (by decide)

/-- C5: the objective built by the code equals the objective as the
specification words it, and the problem sense is minimization. -/
theorem objective_matches_spec
    (num_teams num_flights num_heats num_boats : ℕ)
    (random_weights : ℕ → ℕ → ℕ → ℕ → ℚ) (penalty_w : ℕ → ℕ → ℚ)
    (xv : ℕ → ℕ → ℕ → ℕ → ℚ) (wv : ℕ → ℕ → ℕ → ℕ → ℚ) :
    objective num_teams num_flights num_heats num_boats
        random_weights penalty_w xv wv =
      objective_spec num_teams num_flights num_heats num_boats
        random_weights penalty_w xv wv ∧
    problem_sense = LpSense.minimize := by
  constructor
  · simp only [objective, objective_spec, Finset.sum_product]
  · rfl

/-- C7: when boat capacity times heat count is below the team count and at
least one flight exists, the constraint set is unsatisfiable: summing the
per-flight participation equalities over all teams forces num_teams
occupancies into num_heats times num_boats exclusive slots. -/
theorem capacity_shortfall_infeasible
    (num_teams num_flights num_heats num_boats : ℕ)
    (hcap : num_boats * num_heats < num_teams) (hF : 1 ≤ num_flights) :
    ¬ Feasible num_teams num_flights num_heats num_boats := by
  rintro ⟨x, w, _hbin, _hwbin, hboat, _hteam, _hlink, hpart⟩
  have hf0 : 0 < num_flights := hF
  have htotal : (∑ t ∈ Finset.range num_teams, ∑ h ∈ Finset.range num_heats,
      ∑ b ∈ Finset.range num_boats, x t 0 h b) = num_teams := by
    rw [Finset.sum_congr rfl
      (fun t ht => hpart t (Finset.mem_range.mp ht) 0 hf0)]
    simp
  have hswap : (∑ t ∈ Finset.range num_teams, ∑ h ∈ Finset.range num_heats,
      ∑ b ∈ Finset.range num_boats, x t 0 h b) =
      ∑ h ∈ Finset.range num_heats, ∑ b ∈ Finset.range num_boats,
        ∑ t ∈ Finset.range num_teams, x t 0 h b := by
    rw [Finset.sum_comm]
    apply Finset.sum_congr rfl
    intro h _
    rw [Finset.sum_comm]
  have hbound : (∑ h ∈ Finset.range num_heats, ∑ b ∈ Finset.range num_boats,
      ∑ t ∈ Finset.range num_teams, x t 0 h b) ≤ num_heats * num_boats := by
    calc (∑ h ∈ Finset.range num_heats, ∑ b ∈ Finset.range num_boats,
        ∑ t ∈ Finset.range num_teams, x t 0 h b)
        ≤ ∑ h ∈ Finset.range num_heats, ∑ b ∈ Finset.range num_boats, 1 := by
          apply Finset.sum_le_sum
          intro h hh
          apply Finset.sum_le_sum
          intro b hb
          exact hboat 0 hf0 h (Finset.mem_range.mp hh) b (Finset.mem_range.mp hb)
      _ = num_heats * num_boats := by simp [Finset.sum_const, mul_comm]
  rw [hswap] at htotal
  rw [mul_comm] at hcap
  linarith

/-- C7 witness: two teams, one flight, one heat, one boat is infeasible. -/
theorem capacity_shortfall_infeasible_witness : ¬ Feasible 2 1 1 1 :=
  capacity_shortfall_infeasible 2 1 1 1 (by decide) (by decide)

/-- An assignment restricted to the original heat and boat ranges: zero on any
index outside them. Used to transport a feasible assignment into a model with
more heats or boats. -/
def clampAssign (x : ℕ → ℕ → ℕ → ℕ → ℕ) (num_heats num_boats : ℕ) :
    ℕ → ℕ → ℕ → ℕ → ℕ :=
  fun t f h b => if h < num_heats ∧ b < num_boats then x t f h b else 0

/-- The pairing indicator defined as the conjunction of the two occupancy
indicators, the value the linkage constraints force. -/
def pairIndicator (x : ℕ → ℕ → ℕ → ℕ → ℕ) (num_boats : ℕ) :
    ℕ → ℕ → ℕ → ℕ → ℕ :=
  fun t1 t2 f h =>
    if occ x num_boats t1 f h = 1 ∧ occ x num_boats t2 f h = 1 then 1 else 0

/-- Occupancy of the clamped assignment over the enlarged boat range: equal to
the original occupancy inside the original heat range, and zero outside it. -/
lemma occ_clampAssign (x : ℕ → ℕ → ℕ → ℕ → ℕ)
    {num_heats num_boats num_boats' : ℕ} (hB : num_boats ≤ num_boats')
    (t f h : ℕ) :
    occ (clampAssign x num_heats num_boats) num_boats' t f h =
      if h < num_heats then occ x num_boats t f h else 0 := by
  unfold occ clampAssign
  by_cases hh : h < num_heats
  · rw [if_pos hh]
    rw [← Finset.sum_subset (Finset.range_subset.mpr hB)
      (fun b _ hout => ?_)]
    · apply Finset.sum_congr rfl
      intro b hb
      rw [if_pos ⟨hh, Finset.mem_range.mp hb⟩]
    · rw [if_neg]
      intro hc
      exact hout (Finset.mem_range.mpr hc.2)
  · rw [if_neg hh]
    apply Finset.sum_eq_zero
    intro b _
    rw [if_neg]
    intro hc
    exact hh hc.1

/-- C8: monotone feasibility. A feasible configuration stays feasible when the
heat range or the boat range (or both) is enlarged: the original assignment,
clamped to the original ranges, satisfies every constraint of the larger
model, with the pairing indicators set to the forced conjunction values. -/
theorem feasible_monotone
    (num_teams num_flights num_heats num_boats num_heats' num_boats' : ℕ)
    (hH : num_heats ≤ num_heats') (hB : num_boats ≤ num_boats')
    (hfeas : Feasible num_teams num_flights num_heats num_boats) :
    Feasible num_teams num_flights num_heats' num_boats' := by
  obtain ⟨x, w, hbin, hwbin, hboat, hteam, hlink, hpart⟩ := hfeas
  refine ⟨clampAssign x num_heats num_boats,
    pairIndicator (clampAssign x num_heats num_boats) num_boats',
    ?_, ?_, ?_, ?_, ?_, ?_⟩
  · intro t ht f hf h _hh b _hb
    unfold clampAssign
    split
    · next hc => exact hbin t ht f hf h hc.1 b hc.2
    · omega
  · intro t1 t2 _h12 _h2T f _hf h _hh
    unfold pairIndicator
    split <;> omega
  · intro f hf h _hh b _hb
    by_cases hc : h < num_heats ∧ b < num_boats
    · calc (∑ t ∈ Finset.range num_teams, clampAssign x num_heats num_boats t f h b)
          = ∑ t ∈ Finset.range num_teams, x t f h b := by
            apply Finset.sum_congr rfl
            intro t _
            exact if_pos hc
        _ ≤ 1 := hboat f hf h hc.1 b hc.2
    · have hz : (∑ t ∈ Finset.range num_teams,
          clampAssign x num_heats num_boats t f h b) = 0 := by
        apply Finset.sum_eq_zero
        intro t _
        exact if_neg hc
      omega
  · intro t ht f hf h hh
    rw [occ_clampAssign x hB]
    split
    · next hc => exact hteam t ht f hf h hc
    · omega
  · intro t1 t2 h12 h2T f hf h hh
    have ht1 : t1 < num_teams := lt_trans h12 h2T
    have ho1 : occ (clampAssign x num_heats num_boats) num_boats' t1 f h ≤ 1 := by
      rw [occ_clampAssign x hB]
      split
      · next hc => exact hteam t1 ht1 f hf h hc
      · omega
    have ho2 : occ (clampAssign x num_heats num_boats) num_boats' t2 f h ≤ 1 := by
      rw [occ_clampAssign x hB]
      split
      · next hc => exact hteam t2 h2T f hf h hc
      · omega
    unfold pairIndicator
    by_cases hc : occ (clampAssign x num_heats num_boats) num_boats' t1 f h = 1 ∧
        occ (clampAssign x num_heats num_boats) num_boats' t2 f h = 1
    · rw [if_pos hc]
      exact ⟨by omega, by omega, by omega⟩
    · rw [if_neg hc]
      have hne : ¬ (occ (clampAssign x num_heats num_boats) num_boats' t1 f h = 1 ∧
          occ (clampAssign x num_heats num_boats) num_boats' t2 f h = 1) := hc
      exact ⟨by omega, by omega, by omega⟩
  · intro t ht f hf
    show (∑ h ∈ Finset.range num_heats',
      occ (clampAssign x num_heats num_boats) num_boats' t f h) = 1
    calc (∑ h ∈ Finset.range num_heats',
          occ (clampAssign x num_heats num_boats) num_boats' t f h)
        = ∑ h ∈ Finset.range num_heats',
            if h < num_heats then occ x num_boats t f h else 0 :=
          Finset.sum_congr rfl fun h _ => occ_clampAssign x hB t f h
      _ = ∑ h ∈ Finset.range num_heats,
            if h < num_heats then occ x num_boats t f h else 0 :=
          (Finset.sum_subset (Finset.range_subset.mpr hH)
            (fun h _ hout => if_neg fun hc =>
              hout (Finset.mem_range.mpr hc))).symm
      _ = ∑ h ∈ Finset.range num_heats, occ x num_boats t f h :=
          Finset.sum_congr rfl fun h hh => if_pos (Finset.mem_range.mp hh)
      _ = 1 := hpart t ht f hf

/-- C8 witness: the one-team one-flight configuration with a single heat and
boat is feasible, and enlarging both ranges to two keeps it feasible. -/
theorem feasible_monotone_witness : Feasible 1 1 2 2 :=
  feasible_monotone 1 1 1 1 2 2 (by omega) (by omega)
    ⟨fun _ _ _ _ => 1, fun _ _ _ _ => 0,
      by unfold BinaryOn; decide,
      by intro t1 t2 h12 h2T; exact absurd h12 (by omega),
      by unfold boat_exclusivity; decide,
      by unfold team_exclusivity occ; decide,
      by intro t1 t2 h12 h2T; exact absurd h12 (by omega),
      by unfold flight_participation; decide⟩

/-- The Boolean test of the extraction loop: pulp.value(x[t][f][h][b]) == 1. -/
def hitsOne (val : ℕ → ℕ → ℕ → ℕ → Option ℚ) (f h b t : ℕ) : Bool :=
  decide (val t f h b = some 1)

/-- Lookup after a dict assignment: the assigned key reads the new value, any
other key is unchanged. -/
lemma dictGet_dictInsert (d : List (ℕ × ℕ)) (k k' v : ℕ) :
    dictGet (dictInsert d k v) k' = if k = k' then some v else dictGet d k' := by
  induction d with
  | nil => simp [dictInsert, dictGet]
  | cons p rest ih =>
    obtain ⟨k1, v1⟩ := p
    by_cases h1 : k1 = k
    · subst h1
      by_cases h2 : k1 = k'
      · subst h2
        simp [dictInsert, dictGet]
      · simp [dictInsert, dictGet, h2]
    · by_cases h2 : k = k'
      · subst h2
        simp [dictInsert, dictGet, h1, ih]
      · simp [dictInsert, dictGet, h1, h2, ih]

/-- The team loop for boat b only writes key b: lookups at other keys pass
through to the accumulator dict. -/
lemma heatAssign_get_ne (val : ℕ → ℕ → ℕ → ℕ → Option ℚ)
    (f h b num_teams : ℕ) (d : List (ℕ × ℕ)) (b' : ℕ) (hne : b' ≠ b) :
    dictGet (heatAssign val f h b num_teams d) b' = dictGet d b' := by
  induction num_teams with
  | zero => rfl
  | succ n ih =>
    unfold heatAssign
    rw [List.range_succ, List.foldl_append]
    simp only [List.foldl_cons, List.foldl_nil]
    have hfold : (List.range n).foldl
        (fun acc t => if val t f h b = some 1 then dictInsert acc b (t + 1) else acc)
        d = heatAssign val f h b n d := rfl
    rw [hfold]
    split
    · rw [dictGet_dictInsert, if_neg fun hc => hne hc.symm]
      exact ih
    · exact ih

/-- The team loop at key b: since a later team overwrites an earlier one, the
result at key b is the last team in range order whose value reads one, plus
one; when no team matches, the accumulator value is kept. -/
lemma heatAssign_get_self (val : ℕ → ℕ → ℕ → ℕ → Option ℚ)
    (f h b num_teams : ℕ) (d : List (ℕ × ℕ)) :
    dictGet (heatAssign val f h b num_teams d) b =
      (((List.range num_teams).filter (hitsOne val f h b)).getLast?).elim
        (dictGet d b) (fun t => some (t + 1)) := by
  induction num_teams with
  | zero => rfl
  | succ n ih =>
    unfold heatAssign
    rw [List.range_succ, List.foldl_append, List.filter_append]
    simp only [List.foldl_cons, List.foldl_nil, List.filter_cons,
      List.filter_nil]
    have hfold : (List.range n).foldl
        (fun acc t => if val t f h b = some 1 then dictInsert acc b (t + 1) else acc)
        d = heatAssign val f h b n d := rfl
    rw [hfold]
    by_cases hc : val n f h b = some 1
    · rw [if_pos hc, dictGet_dictInsert, if_pos rfl]
      have hbit : hitsOne val f h b n = true := decide_eq_true hc
      simp [hbit, List.getLast?_concat]
    · rw [if_neg hc]
      have hbit : hitsOne val f h b n = false := decide_eq_false hc
      simp only [hbit, Bool.false_eq_true, if_false, List.append_nil]
      exact ih

/-- The heat dict at key b: present exactly when b is an in-range boat with
some team value reading one, in which case it holds the last such team in
range order, plus one. -/
lemma heat_schedule_get (val : ℕ → ℕ → ℕ → ℕ → Option ℚ)
    (num_teams num_boats f h b : ℕ) :
    dictGet (heat_schedule val num_teams num_boats f h) b =
      if b < num_boats then
        (((List.range num_teams).filter (hitsOne val f h b)).getLast?).elim
          none (fun t => some (t + 1))
      else none := by
  induction num_boats with
  | zero =>
    rw [if_neg (Nat.not_lt_zero b)]
    rfl
  | succ n ih =>
    unfold heat_schedule
    rw [List.range_succ, List.foldl_append]
    simp only [List.foldl_cons, List.foldl_nil]
    have hfold : (List.range n).foldl
        (fun acc b' => heatAssign val f h b' num_teams acc) [] =
        heat_schedule val num_teams n f h := rfl
    rw [hfold]
    by_cases hb : b = n
    · subst hb
      rw [heatAssign_get_self, ih, if_neg (lt_irrefl b),
        if_pos (Nat.lt_succ_self b)]
    · rw [heatAssign_get_ne val f h n num_teams _ b hb, ih]
      by_cases hlt : b < n
      · rw [if_pos hlt, if_pos (Nat.lt_succ_of_lt hlt)]
      · rw [if_neg hlt, if_neg (by omega)]

/-- A key read back from the heat dict names an in-range boat and comes with
an in-range team whose value reads one. -/
lemma heat_schedule_get_some {val : ℕ → ℕ → ℕ → ℕ → Option ℚ}
    {num_teams num_boats f h b v : ℕ}
    (hget : dictGet (heat_schedule val num_teams num_boats f h) b = some v) :
    b < num_boats ∧ ∃ t, t < num_teams ∧ val t f h b = some 1 ∧ v = t + 1 := by
  rw [heat_schedule_get] at hget
  by_cases hb : b < num_boats
  · rw [if_pos hb] at hget
    refine ⟨hb, ?_⟩
    cases hlast : ((List.range num_teams).filter (hitsOne val f h b)).getLast? with
    | none => rw [hlast] at hget; exact absurd hget (by simp)
    | some t =>
      rw [hlast] at hget
      have hmem : t ∈ (List.range num_teams).filter (hitsOne val f h b) :=
        List.mem_of_mem_getLast? hlast
      rcases List.mem_filter.mp hmem with ⟨hrange, hbit⟩
      refine ⟨t, List.mem_range.mp hrange, of_decide_eq_true hbit, ?_⟩
      simpa using hget.symm
  · rw [if_neg hb] at hget
    exact absurd hget (by simp)

/-- Under slot exclusivity (at most one in-range team whose value reads one at
this boat), the heat dict holds key b exactly when an in-range team occupies
boat b, and then maps it to that team plus one. -/
lemma heat_schedule_get_eq_some {val : ℕ → ℕ → ℕ → ℕ → Option ℚ}
    {num_teams num_boats f h b t : ℕ}
    (huniq : ∀ t1 t2, t1 < num_teams → t2 < num_teams →
      val t1 f h b = some 1 → val t2 f h b = some 1 → t1 = t2)
    (hb : b < num_boats) (ht : t < num_teams) (hval : val t f h b = some 1) :
    dictGet (heat_schedule val num_teams num_boats f h) b = some (t + 1) := by
  rw [heat_schedule_get, if_pos hb]
  have hmem : t ∈ (List.range num_teams).filter (hitsOne val f h b) :=
    List.mem_filter.mpr ⟨List.mem_range.mpr ht, decide_eq_true hval⟩
  cases hlast : ((List.range num_teams).filter (hitsOne val f h b)).getLast? with
  | none =>
    rw [List.getLast?_eq_none_iff] at hlast
    rw [hlast] at hmem
    exact absurd hmem (List.not_mem_nil t)
  | some a =>
    have hamem : a ∈ (List.range num_teams).filter (hitsOne val f h b) :=
      List.mem_of_mem_getLast? hlast
    rcases List.mem_filter.mp hamem with ⟨harange, habit⟩
    have : a = t := huniq a t (List.mem_range.mp harange) ht
      (of_decide_eq_true habit) hval
    subst this
    rfl

/-- A returned (non-None) result of generate_schedule is the extracted
schedule structure. -/
lemma generate_schedule_some {num_flights num_boats num_teams num_heats : ℕ}
    {status : CbcStatus} {val : ℕ → ℕ → ℕ → ℕ → Option ℚ}
    {sched : List (List (List (ℕ × ℕ)))}
    (hret : generate_schedule num_flights num_boats num_teams num_heats
      status val = some sched) :
    sched = schedule val num_teams num_flights num_heats num_boats := by
  unfold generate_schedule at hret
  split at hret
  · exact absurd hret (by simp)
  · exact (Option.some.inj hret).symm

/-- Positional lookup in a list built by mapping over an index range. -/
lemma getD_map_range {α : Type} (n k : ℕ) (g : ℕ → α) (d : α) (hk : k < n) :
    ((List.range n).map g).getD k d = g k := by
  rw [List.getD_eq_getElem?_getD, List.getElem?_map, List.getElem?_range hk]
  rfl

/-- The schedule entry at flight f, heat h is the heat dict of (f, h). -/
lemma schedule_heat {val : ℕ → ℕ → ℕ → ℕ → Option ℚ}
    {num_teams num_flights num_heats num_boats f h : ℕ}
    (hf : f < num_flights) (hh : h < num_heats) :
    (((schedule val num_teams num_flights num_heats num_boats).getD f []).getD
      h []) = heat_schedule val num_teams num_boats f h := by
  unfold schedule
  rw [getD_map_range num_flights f _ [] hf, getD_map_range num_heats h _ [] hh]

/-- When the solver values are those of a binary integer assignment, a value
reads one exactly when the assignment is one. -/
lemma val_one_iff {val : ℕ → ℕ → ℕ → ℕ → Option ℚ} {x : ℕ → ℕ → ℕ → ℕ → ℕ}
    {num_teams num_flights num_heats num_boats : ℕ}
    (hval : ∀ t < num_teams, ∀ f < num_flights, ∀ h < num_heats,
      ∀ b < num_boats, val t f h b = some ((x t f h b : ℚ)))
    {t f h b : ℕ} (ht : t < num_teams) (hf : f < num_flights)
    (hh : h < num_heats) (hb : b < num_boats) :
    (val t f h b = some 1 ↔ x t f h b = 1) := by
  rw [hval t ht f hf h hh b hb]
  constructor
  · intro he
    exact_mod_cast Option.some.inj he
  · intro he
    rw [he]
    norm_num

/-- Slot exclusivity makes the team occupying a given boat unique. -/
lemma uniq_of_boat_exclusivity {val : ℕ → ℕ → ℕ → ℕ → Option ℚ}
    {x : ℕ → ℕ → ℕ → ℕ → ℕ} {num_teams num_flights num_heats num_boats : ℕ}
    (hval : ∀ t < num_teams, ∀ f < num_flights, ∀ h < num_heats,
      ∀ b < num_boats, val t f h b = some ((x t f h b : ℚ)))
    (hboat : boat_exclusivity num_teams num_flights num_heats num_boats x)
    {f h b : ℕ} (hf : f < num_flights) (hh : h < num_heats) (hb : b < num_boats) :
    ∀ t1 t2, t1 < num_teams → t2 < num_teams →
      val t1 f h b = some 1 → val t2 f h b = some 1 → t1 = t2 := by
  intro t1 t2 ht1 ht2 hv1 hv2
  have hx1 : x t1 f h b = 1 := (val_one_iff hval ht1 hf hh hb).mp hv1
  have hx2 : x t2 f h b = 1 := (val_one_iff hval ht2 hf hh hb).mp hv2
  by_contra hne
  exact two_ones_contradiction (Finset.mem_range.mpr ht1)
    (Finset.mem_range.mpr ht2) hne hx1 hx2 (hboat f hf h hh b hb)

/-- C1 (amended): for every schedule returned by generate_schedule from
solver values realizing a binary assignment that satisfies slot exclusivity
and per-flight participation (an integer-feasible incumbent), every team
appears in exactly one (heat, boat) cell of every flight of the returned
structure. The unconditional form over all non-None results fails on the
timeout-without-incumbent path, exhibited separately. -/
theorem team_appears_once_per_flight
    (num_flights num_boats num_teams num_heats : ℕ) (status : CbcStatus)
    (val : ℕ → ℕ → ℕ → ℕ → Option ℚ) (x : ℕ → ℕ → ℕ → ℕ → ℕ)
    (sched : List (List (List (ℕ × ℕ))))
    (hval : ∀ t < num_teams, ∀ f < num_flights, ∀ h < num_heats,
      ∀ b < num_boats, val t f h b = some ((x t f h b : ℚ)))
    (hbin : BinaryOn num_teams num_flights num_heats num_boats x)
    (hboat : boat_exclusivity num_teams num_flights num_heats num_boats x)
    (hpart : flight_participation num_teams num_flights num_heats num_boats x)
    (hret : generate_schedule num_flights num_boats num_teams num_heats
      status val = some sched) :
    ∀ t < num_teams, ∀ f < num_flights,
      ((Finset.range num_heats ×ˢ Finset.range num_boats).filter
        (fun p => dictGet ((sched.getD f []).getD p.1 []) p.2 =
          some (t + 1))).card = 1 := by
  intro t ht f hf
  have hsched := generate_schedule_some hret
  subst hsched
  have hpred : ∀ p ∈ Finset.range num_heats ×ˢ Finset.range num_boats,
      ((dictGet (((schedule val num_teams num_flights num_heats
        num_boats).getD f []).getD p.1 []) p.2 = some (t + 1)) ↔
        x t f p.1 p.2 = 1) := by
    intro p hp
    rcases Finset.mem_product.mp hp with ⟨hh', hb'⟩
    have hh : p.1 < num_heats := Finset.mem_range.mp hh'
    have hb : p.2 < num_boats := Finset.mem_range.mp hb'
    rw [schedule_heat hf hh]
    constructor
    · intro hget
      rcases heat_schedule_get_some hget with ⟨_, t', ht', hv', heq⟩
      have htt : t' = t := by omega
      subst htt
      exact (val_one_iff hval ht' hf hh hb).mp hv'
    · intro hx1
      exact heat_schedule_get_eq_some (uniq_of_boat_exclusivity hval hboat hf hh hb)
        hb ht ((val_one_iff hval ht hf hh hb).mpr hx1)
  rw [Finset.filter_congr hpred]
  have hbound : ∀ p ∈ Finset.range num_heats ×ˢ Finset.range num_boats,
      x t f p.1 p.2 ≤ 1 := by
    intro p hp
    rcases Finset.mem_product.mp hp with ⟨hh', hb'⟩
    exact hbin t ht f hf p.1 (Finset.mem_range.mp hh') p.2 (Finset.mem_range.mp hb')
  rw [← sum_binary_eq_card_filter _ _ hbound, Finset.sum_product]
  exact hpart t ht f hf

/-- C2: for every returned schedule built from solver values realizing a
binary assignment satisfying slot exclusivity, at most one team value reads
one at each (flight, heat, boat), and accordingly each heat mapping relates
each boat key to at most one team number. -/
theorem slot_has_at_most_one_team
    (num_flights num_boats num_teams num_heats : ℕ) (status : CbcStatus)
    (val : ℕ → ℕ → ℕ → ℕ → Option ℚ) (x : ℕ → ℕ → ℕ → ℕ → ℕ)
    (sched : List (List (List (ℕ × ℕ))))
    (hval : ∀ t < num_teams, ∀ f < num_flights, ∀ h < num_heats,
      ∀ b < num_boats, val t f h b = some ((x t f h b : ℚ)))
    (hboat : boat_exclusivity num_teams num_flights num_heats num_boats x)
    (hret : generate_schedule num_flights num_boats num_teams num_heats
      status val = some sched) :
    ∀ f < num_flights, ∀ h < num_heats, ∀ b < num_boats,
      ((Finset.range num_teams).filter
        (fun t => val t f h b = some 1)).card ≤ 1 ∧
      ∀ t1 t2, dictGet ((sched.getD f []).getD h []) b = some (t1 + 1) →
        dictGet ((sched.getD f []).getD h []) b = some (t2 + 1) → t1 = t2 := by
  intro f hf h hh b hb
  constructor
  · apply Finset.card_le_one.mpr
    intro t1 ht1 t2 ht2
    rcases Finset.mem_filter.mp ht1 with ⟨hr1, hv1⟩
    rcases Finset.mem_filter.mp ht2 with ⟨hr2, hv2⟩
    exact uniq_of_boat_exclusivity hval hboat hf hh hb t1 t2
      (Finset.mem_range.mp hr1) (Finset.mem_range.mp hr2) hv1 hv2
  · intro t1 t2 h1 h2
    rw [h1] at h2
    have := Option.some.inj h2
    omega

/-- C3: for every returned schedule built from solver values realizing a
binary assignment satisfying team exclusivity, no team number appears under
two distinct boat keys of the same heat mapping. -/
theorem team_in_one_boat_per_heat
    (num_flights num_boats num_teams num_heats : ℕ) (status : CbcStatus)
    (val : ℕ → ℕ → ℕ → ℕ → Option ℚ) (x : ℕ → ℕ → ℕ → ℕ → ℕ)
    (sched : List (List (List (ℕ × ℕ))))
    (hval : ∀ t < num_teams, ∀ f < num_flights, ∀ h < num_heats,
      ∀ b < num_boats, val t f h b = some ((x t f h b : ℚ)))
    (hteam : team_exclusivity num_teams num_flights num_heats num_boats x)
    (hret : generate_schedule num_flights num_boats num_teams num_heats
      status val = some sched) :
    ∀ t, ∀ f < num_flights, ∀ h < num_heats, ∀ b1 b2,
      dictGet ((sched.getD f []).getD h []) b1 = some (t + 1) →
      dictGet ((sched.getD f []).getD h []) b2 = some (t + 1) → b1 = b2 := by
  intro t f hf h hh b1 b2 h1 h2
  have hsched := generate_schedule_some hret
  subst hsched
  rw [schedule_heat hf hh] at h1 h2
  rcases heat_schedule_get_some h1 with ⟨hb1, t1', ht1', hv1, he1⟩
  rcases heat_schedule_get_some h2 with ⟨hb2, t2', ht2', hv2, he2⟩
  have htt1 : t1' = t := by omega
  have htt2 : t2' = t := by omega
  rw [htt1] at ht1' hv1
  rw [htt2] at ht2' hv2
  have hx1 : x t f h b1 = 1 := (val_one_iff hval ht1' hf hh hb1).mp hv1
  have hx2 : x t f h b2 = 1 := (val_one_iff hval ht1' hf hh hb2).mp hv2
  by_contra hne
  have hle : (∑ b ∈ Finset.range num_boats, x t f h b) ≤ 1 :=
    hteam t ht1' f hf h hh
  exact two_ones_contradiction (Finset.mem_range.mpr hb1)
    (Finset.mem_range.mpr hb2) hne hx1 hx2 hle

/-- C9: the extractor postcondition. The returned structure lists flights in
index order and heats in index order inside each flight; each heat dict holds
exactly the boats at which some in-range team value reads one, and relates
such a boat to that team number plus one. -/
theorem extraction_postcondition
    (num_flights num_boats num_teams num_heats : ℕ) (status : CbcStatus)
    (val : ℕ → ℕ → ℕ → ℕ → Option ℚ)
    (sched : List (List (List (ℕ × ℕ))))
    (huniq : ∀ f < num_flights, ∀ h < num_heats, ∀ b < num_boats,
      ∀ t1 t2, t1 < num_teams → t2 < num_teams →
        val t1 f h b = some 1 → val t2 f h b = some 1 → t1 = t2)
    (hret : generate_schedule num_flights num_boats num_teams num_heats
      status val = some sched) :
    sched.length = num_flights ∧
    (∀ f < num_flights, (sched.getD f []).length = num_heats) ∧
    (∀ f < num_flights, ∀ h < num_heats, ∀ b < num_boats, ∀ v,
      (dictGet ((sched.getD f []).getD h []) b = some v ↔
        ∃ t, t < num_teams ∧ val t f h b = some 1 ∧ v = t + 1)) := by
  have hsched := generate_schedule_some hret
  subst hsched
  refine ⟨?_, ?_, ?_⟩
  · unfold schedule
    rw [List.length_map, List.length_range]
  · intro f hf
    unfold schedule
    rw [getD_map_range num_flights f _ [] hf, List.length_map, List.length_range]
  · intro f hf h hh b hb v
    rw [schedule_heat hf hh]
    constructor
    · intro hget
      rcases heat_schedule_get_some hget with ⟨_, t, ht, hv, he⟩
      exact ⟨t, ht, hv, he⟩
    · rintro ⟨t, ht, hv, rfl⟩
      exact heat_schedule_get_eq_some (huniq f hf h hh b hb) hb ht hv

/-- C10: for any solver status whose label is not Infeasible, Unbounded, or
Undefined (that covers Optimal and the Not Solved label a timeout produces),
generate_schedule returns a schedule structure with one entry per flight and
one heat dict per heat, built from the variable values that read one. -/
theorem non_failure_label_returns_structure
    (num_flights num_boats num_teams num_heats : ℕ) (status : CbcStatus)
    (val : ℕ → ℕ → ℕ → ℕ → Option ℚ)
    (hstatus : statusLabel status ∉ ["Infeasible", "Unbounded", "Undefined"]) :
    generate_schedule num_flights num_boats num_teams num_heats status val =
      some (schedule val num_teams num_flights num_heats num_boats) ∧
    (schedule val num_teams num_flights num_heats num_boats).length =
      num_flights ∧
    ∀ fl ∈ schedule val num_teams num_flights num_heats num_boats,
      fl.length = num_heats := by
  refine ⟨?_, ?_, ?_⟩
  · unfold generate_schedule
    rw [if_neg hstatus]
  · unfold schedule
    rw [List.length_map, List.length_range]
  · intro fl hfl
    unfold schedule at hfl
    rcases List.mem_map.mp hfl with ⟨f, _, rfl⟩
    rw [List.length_map, List.length_range]

/-- Solver values in which no variable was ever assigned a value, as happens
when the time limit expires before any integer-feasible incumbent exists. -/
def valNone : ℕ → ℕ → ℕ → ℕ → Option ℚ := fun _ _ _ _ => none

/-- C6 failing case: with the Not Solved label (time limit reached with no
incumbent) and no variable values, generate_schedule does not return the
no-solution signal None; it returns a schedule structure of empty heat dicts. -/
theorem timeout_no_incumbent_not_none :
    generate_schedule 1 2 2 1 CbcStatus.notSolved valNone = some [[[]]] ∧
    generate_schedule 1 2 2 1 CbcStatus.notSolved valNone ≠ none := by
  decide

/-- C1 counterexample: the frozen claim quantifies over every result that is
not the no-solution signal. With the Not Solved label and no incumbent
values, the result is the non-None structure [[[]]], and inside it team
number 1 appears in zero (heat, boat) cells of flight 0, not exactly one. -/
theorem team_missing_from_returned_timeout_schedule :
    generate_schedule 1 2 2 1 CbcStatus.notSolved valNone = some [[[]]] ∧
    ((Finset.range 1 ×ˢ Finset.range 2).filter
      (fun p => dictGet ((([[[]]] : List (List (List (ℕ × ℕ)))).getD 0 []).getD
        p.1 []) p.2 = some (0 + 1))).card = 0 := by
  decide

/-- A concrete feasible binary assignment on two teams, one flight, one heat,
two boats: team t in boat t. -/
def xEx : ℕ → ℕ → ℕ → ℕ → ℕ := fun t _ _ b => if t = b then 1 else 0

/-- The solver values realizing xEx. -/
def valEx : ℕ → ℕ → ℕ → ℕ → Option ℚ := fun t f h b => some ((xEx t f h b : ℚ))

/-- C1 witness: in the schedule extracted from valEx, team 0 appears in
exactly one (heat, boat) cell of flight 0. -/
theorem team_appears_once_per_flight_witness :
    ((Finset.range 1 ×ˢ Finset.range 2).filter
      (fun p => dictGet (((schedule valEx 2 1 1 2).getD 0 []).getD p.1 []) p.2 =
        some (0 + 1))).card = 1 :=
  team_appears_once_per_flight 1 2 2 1 CbcStatus.optimal valEx xEx
    (schedule valEx 2 1 1 2)
    (fun t _ f _ h _ b _ => rfl)
    (by unfold BinaryOn xEx; decide)
    (by unfold boat_exclusivity xEx; decide)
    (by unfold flight_participation xEx; decide)
    rfl 0 (by decide) 0 (by decide)

/-- C2 witness: in the same instance at (flight 0, heat 0, boat 0), at most
one team value reads one, and the heat dict is single-valued at that boat. -/
theorem slot_has_at_most_one_team_witness :
    ((Finset.range 2).filter
      (fun t => valEx t 0 0 0 = some 1)).card ≤ 1 ∧
    ∀ t1 t2,
      dictGet (((schedule valEx 2 1 1 2).getD 0 []).getD 0 []) 0 = some (t1 + 1) →
      dictGet (((schedule valEx 2 1 1 2).getD 0 []).getD 0 []) 0 = some (t2 + 1) →
      t1 = t2 :=
  slot_has_at_most_one_team 1 2 2 1 CbcStatus.optimal valEx xEx
    (schedule valEx 2 1 1 2)
    (fun t _ f _ h _ b _ => rfl)
    (by unfold boat_exclusivity xEx; decide)
    rfl 0 (by decide) 0 (by decide) 0 (by decide)

/-- C3 witness: in the same instance, team number 1 sits at boat key 0 of the
heat dict of (flight 0, heat 0), and the theorem applied at that concrete
occupancy yields boat equality. -/
theorem team_in_one_boat_per_heat_witness :
    dictGet (((schedule valEx 2 1 1 2).getD 0 []).getD 0 []) 0 = some (0 + 1) ∧
    (0 : ℕ) = 0 :=
  ⟨by decide,
    team_in_one_boat_per_heat 1 2 2 1 CbcStatus.optimal valEx xEx
      (schedule valEx 2 1 1 2)
      (fun t _ f _ h _ b _ => rfl)
      (by unfold team_exclusivity occ xEx; decide)
      rfl 0 0 (by decide) 0 (by decide) 0 0 (by decide) (by decide)⟩

/-- C9 witness: the extractor postcondition at the valEx instance. -/
theorem extraction_postcondition_witness :
    (schedule valEx 2 1 1 2).length = 1 ∧
    (∀ f < 1, ((schedule valEx 2 1 1 2).getD f []).length = 1) ∧
    (∀ f < 1, ∀ h < 1, ∀ b < 2, ∀ v,
      (dictGet (((schedule valEx 2 1 1 2).getD f []).getD h []) b = some v ↔
        ∃ t, t < 2 ∧ valEx t f h b = some 1 ∧ v = t + 1)) :=
  extraction_postcondition 1 2 2 1 CbcStatus.optimal valEx
    (schedule valEx 2 1 1 2)
    (fun f hf h hh b hb =>
      uniq_of_boat_exclusivity (x := xEx) (fun t _ f _ h _ b _ => rfl)
        (by unfold boat_exclusivity xEx; decide) hf hh hb)
    rfl

/-- C10 witness: the Not Solved label with no variable values still returns a
schedule structure of the right shape. -/
theorem non_failure_label_returns_structure_witness :
    generate_schedule 1 1 1 1 CbcStatus.notSolved valNone =
      some (schedule valNone 1 1 1 1) ∧
    (schedule valNone 1 1 1 1).length = 1 ∧
    ∀ fl ∈ schedule valNone 1 1 1 1, fl.length = 1 :=
  non_failure_label_returns_structure 1 1 1 1 CbcStatus.notSolved valNone
    (by decide)

end TeamHeatScheduler
